import Mathlib

/-!
Verification of the chunked-upload engine of django-elliptics.

The definitions below are a shallow embedding of the storage backend found in
`django_elliptics/storage/` (base.py, simple.py, threaded.py), the later of
the two generations of the engine present in the repository and the one the
specification follows.  Bytes are modelled as natural numbers, byte strings
as lists, HTTP transports as oracles mapping attempt or request indices to
outcomes, and the thread pool of the threaded backend as an explicit list of
slots holding each in-flight request's eventual result.
-/

namespace DjangoElliptics

/-- Content handed to `_save`: either a fully materialized byte buffer
(sliced by explicit offset, like a Python string) or a stream-like object
whose read cursor advances on every read. -/
inductive Content where
  | bytes (data : List Nat)
  | stream (pos : Nat) (data : List Nat)
deriving DecidableEq

/-- Model of `EllipticsStorage._create_chunk(content, from_byte, chunk_length)`
(storage/simple.py): for sliced content it returns
`content[from_byte:from_byte+chunk_length]`; for stream content it reads up to
`chunk_length` bytes at the cursor and advances the cursor.  Returns the chunk
together with the content state after the call. -/
def createChunk : Content → Nat → Nat → List Nat × Content
  | .bytes d, fromByte, n => ((d.drop fromByte).take n, .bytes d)
  | .stream p d, _, n =>
      let chunk := (d.drop p).take n
      (chunk, .stream (p + ((d.drop p).take n).length) d)

/-- Number of bytes a resumed chunk loop can still consume; used as the
termination measure of the upload loops. -/
def Content.remaining : Content → Nat → Nat
  | .bytes d, uploaded => d.length - uploaded
  | .stream p d, _ => d.length - p

/-- Bytes the chunk loop positioned at `uploaded` will still deliver:
the suffix of a buffer from `uploaded`, or everything after a stream's
cursor. -/
def Content.rest : Content → Nat → List Nat
  | .bytes d, uploaded => d.drop uploaded
  | .stream p d, _ => d.drop p

/-- Query parameters and body of one `upload` POST issued by the engine.
`sync` records whether `_upload_a_chunk` was called with `synchronous=True`. -/
structure UploadReq where
  offset : Option Nat := none
  size : Option Nat := none
  prepare : Option Nat := none
  commit : Option Nat := none
  ioflags : Option Nat := none
  body : List Nat := []
  sync : Bool := true
deriving DecidableEq

/-- Loop of `EllipticsStorage._save_file` (storage/simple.py).  The loop runs
while the current chunk is non-empty; `uploaded` counts the bytes of all
previous chunks; the next chunk is fetched from `uploaded + len(chunk)` with a
lookahead of one so the request parameters can distinguish the first, middle
and last chunk.  Produces the requests handed to `_upload_a_chunk` in order. -/
def saveFileGo (M length : Nat) (c : Content) (uploaded : Nat) (chunk : List Nat) :
    List UploadReq :=
  if h : chunk.length = 0 then []
  else
    { offset :=
        if uploaded = 0 ∧ (createChunk c (uploaded + chunk.length) M).1.length = 0 then none
        else some uploaded
      size :=
        if uploaded = 0 ∧ (createChunk c (uploaded + chunk.length) M).1.length = 0 then none
        else some chunk.length
      prepare :=
        if uploaded = 0 ∧ 0 < (createChunk c (uploaded + chunk.length) M).1.length ∧
            chunk.length < length then some length
        else none
      commit :=
        if 0 < uploaded ∧ (createChunk c (uploaded + chunk.length) M).1.length = 0 then
          some (uploaded + chunk.length)
        else none
      body := chunk
      sync :=
        decide (uploaded = 0) ||
          decide ((createChunk c (uploaded + chunk.length) M).1.length = 0) } ::
      saveFileGo M length (createChunk c (uploaded + chunk.length) M).2
        (uploaded + chunk.length) (createChunk c (uploaded + chunk.length) M).1
termination_by (if chunk.length = 0 then 0 else c.remaining uploaded + 1)
decreasing_by
  simp only [h, if_false]
  cases c with
  | bytes d =>
    simp only [createChunk, Content.remaining, List.length_take, List.length_drop]
    split <;> omega
  | stream p d =>
    simp only [createChunk, Content.remaining, List.length_take, List.length_drop]
    split <;> omega

/-- `EllipticsStorage._save_file(name, content, length)` (storage/simple.py):
the sequence of upload requests issued for `content` whose reported size is
`length`, with chunk bound `M` (`MAX_CHUNK_SIZE`). -/
def saveFile (M length : Nat) (c : Content) : List UploadReq :=
  let pr := createChunk c 0 M
  saveFileGo M length pr.2 0 pr.1

/-- Fallback loop of `EllipticsStorage._save` (storage/simple.py) when the
content size cannot be guessed: repeatedly pull a chunk and send it through
`_save_with_append` (a POST with `ioflags=2` and no other parameters) until an
empty chunk signals exhaustion. -/
def saveAppendLoop (M : Nat) (c : Content) (uploaded : Nat) : List UploadReq :=
  if h : (createChunk c uploaded M).1.length = 0 then []
  else
    { ioflags := some 2, body := (createChunk c uploaded M).1 } ::
      saveAppendLoop M (createChunk c uploaded M).2 (uploaded + (createChunk c uploaded M).1.length)
termination_by c.remaining uploaded
decreasing_by
  cases c with
  | bytes d =>
    simp only [createChunk, Content.remaining, List.length_take, List.length_drop] at h ⊢
    omega
  | stream p d =>
    simp only [createChunk, Content.remaining, List.length_take, List.length_drop] at h ⊢
    omega

/-- `EllipticsStorage._save(name, content, append)` (storage/simple.py).
`sizeGuess` is the outcome of `__guess_content_size`: `some n` when the
content exposes a usable `size` attribute or supports `len()`, `none` when the
probe raises.  With `append=True` the whole content is sent as one
`ioflags=2` request; with an unknown size the engine falls back to the
append-only chunk loop; otherwise it runs `_save_file`. -/
def saveOp (M : Nat) (append : Bool) (sizeGuess : Option Nat) (c : Content) :
    List UploadReq :=
  if append then [{ ioflags := some 2, body := c.rest 0 }]
  else
    match sizeGuess with
    | none => saveAppendLoop M c 0
    | some length => saveFile M length c

/-- Outcome of one transport attempt inside `_timeout_request`:
`requests.Timeout`, `socket.gaierror`, or a response with a status code. -/
inductive AttemptOutcome where
  | timeout
  | gaierror
  | resp (status : Nat)
deriving DecidableEq

/-- Result of `EllipticsStorage._timeout_request` (storage/simple.py):
`baseErr` models the `BaseError` raised on `socket.gaierror`; `timedOut n`
the `TimeoutError` raised after `n` exhausted attempts; `nameErr` the
`NameError` hit when `retries = 0` and the failure log line reads the loop
variable that was never bound; `ok s n` a response with status `s` obtained
on attempt number `n`. -/
inductive ReqResult where
  | baseErr
  | timedOut (attempts : Nat)
  | nameErr
  | ok (status : Nat) (attempts : Nat)
deriving DecidableEq

/-- Retry loop of `_timeout_request`: `i` is the index of the next attempt,
the second argument how many attempts of the budget remain.  A timeout moves
on to the next attempt; any received response, whatever its status, breaks the
loop; exhausting the budget raises `TimeoutError`. -/
def timeoutLoop (t : Nat → AttemptOutcome) (i : Nat) : Nat → ReqResult
  | 0 => if i = 0 then .nameErr else .timedOut i
  | k + 1 =>
    match t i with
    | .gaierror => .baseErr
    | .timeout => timeoutLoop t (i + 1) k
    | .resp s => .ok s (i + 1)

/-- `EllipticsStorage._timeout_request` for a fixed method: run up to
`retries` attempts against the transport `t`. -/
def timeoutRequest (t : Nat → AttemptOutcome) (retries : Nat) : ReqResult :=
  timeoutLoop t 0 retries

/-- Exceptions raised inside `_timeout_request` and captured by worker
threads; all of them derive from `BaseError`. -/
inductive ThreadExc where
  | base (msg : String)
  | timedOut
deriving DecidableEq

/-- Exceptions observable from the storage backend.  `indexError` is the only
non-`BaseError` one: `list(pool)[0]` on an empty pool. -/
inductive Exc where
  | baseError (msg : String)
  | timeoutError
  | saveError (status : Nat)
  | indexError
deriving DecidableEq

/-- Class embedding of the captured thread exceptions. -/
def ThreadExc.toExc : ThreadExc → Exc
  | .base m => .baseError m
  | .timedOut => .timeoutError

/-- Whether an exception is a `BaseError` derivative (the class the drain
loop's first `except` clause catches). -/
def Exc.isBaseError : Exc → Bool
  | .indexError => false
  | _ => true

/-- HTTP verbs used by the backend. -/
inductive Method where
  | GET
  | HEAD
  | POST
deriving DecidableEq

/-- One HTTP request as seen by the transport. -/
structure HttpCall where
  method : Method
  url : String
deriving DecidableEq

/-- Settings of `BaseEllipticsStorage` (storage/base.py): the key namespace
and the two base URLs. -/
structure StorageSettings where
  pfx : String
  publicUrl : String
  privateUrl : String

/-- The slash character. -/
def slashChar : Char := '/'

/-- Python's `part.strip('/')`: remove leading and trailing slashes. -/
def stripSlash (s : String) : String :=
  String.mk (((s.toList.dropWhile (fun ch => ch = slashChar)).reverse.dropWhile
    (fun ch => ch = slashChar)).reverse)

/-- Python's `urllib.urlencode` restricted to numeric values, as used by the
upload URLs. -/
def urlencodePairs (args : List (String × Nat)) : String :=
  String.intercalate "&" (args.map (fun kv => kv.1 ++ "=" ++ toString kv.2))

/-- `BaseEllipticsStorage._make_url(*parts, **query_params)` (storage/base.py):
join the non-empty parts, each stripped of surrounding slashes, with `/`, and
append the urlencoded query parameters when any are present. -/
def makeUrl (parts : List String) (args : List (String × Nat)) : String :=
  let url := String.intercalate "/" ((parts.filter (fun part => part ≠ "")).map stripSlash)
  if args.isEmpty then url else url ++ "?" ++ urlencodePairs args

/-- `BaseEllipticsStorage._make_private_url(command, *parts, **args)`. -/
def makePrivateUrl (st : StorageSettings) (command : String) (parts : List String)
    (args : List (String × Nat)) : String :=
  makeUrl ([st.privateUrl, command, st.pfx] ++ parts) args

/-- `BaseEllipticsStorage.delete(name)` (storage/base.py): build the delete
URL and issue a single GET through the raw session (not the retrying
executor); the response status is read from the transport and discarded; the
method returns `None` and raises nothing.  The result is the list of issued
HTTP calls together with the exception raised, if any. -/
def deleteOp (st : StorageSettings) (name : String) (transport : HttpCall → Nat) :
    List HttpCall × Option Exc :=
  let url := makePrivateUrl st "delete" [name] []
  let call : HttpCall := { method := .GET, url := url }
  let _status := transport call
  ([call], none)

/-- File access modes of `EllipticsFile`. -/
inductive FileMode where
  | read
  | write
  | append
deriving DecidableEq

/-- The character `r`. -/
def rChar : Char := 'r'

/-- The character `w`. -/
def wChar : Char := 'w'

/-- The character `a`. -/
def aChar : Char := 'a'

/-- The character `+`. -/
def plusChar : Char := '+'

/-- `EllipticsFile.__init__`'s mode parsing (storage/base.py): the first of
`r`, `w`, `a` contained in the mode string wins; a missing one or a `+` is a
`ValueError`, modelled as `none`. -/
def parseMode (mode : List Char) : Option FileMode :=
  let base :=
    if mode.contains rChar then some FileMode.read
    else if mode.contains wChar then some FileMode.write
    else if mode.contains aChar then some FileMode.append
    else none
  match base with
  | none => none
  | some fm => if mode.contains plusChar then none else some fm

/-- State of an `EllipticsFile` handle: its key, parsed mode, and the lazily
created in-memory stream (`None` until the first `read` or `write`). -/
structure EFile where
  name : String
  mode : FileMode
  stream : Option (List Nat)
deriving DecidableEq

/-- `BaseEllipticsStorage._open(name, mode)`: a fresh handle with no stream. -/
def openFile (name : String) (mode : List Char) : Option EFile :=
  (parseMode mode).map (fun fm => { name := name, mode := fm, stream := none })

/-- Arguments of a `storage._save` call triggered by `EllipticsFile.close`. -/
structure SaveCall where
  name : String
  data : List Nat
  append : Bool
deriving DecidableEq

/-- `EllipticsFile.close` (storage/base.py): if no stream was ever created the
method returns immediately; otherwise, for a handle opened for writing or
appending, it saves the buffered bytes under the handle's name.  Returns the
`_save` call performed, if any. -/
def EFile.close (f : EFile) : Option SaveCall :=
  match f.stream with
  | none => none
  | some buf =>
    match f.mode with
    | .write => some { name := f.name, data := buf, append := false }
    | .append => some { name := f.name, data := buf, append := true }
    | .read => none

/-- The remote store, as a map from keys to stored bytes. -/
def Store : Type := String → Option (List Nat)

/-- Effect of one `_save` call on the remote store: an append extends the
stored value, a plain save replaces it. -/
def applySaveCall (store : Store) (call : SaveCall) : Store :=
  fun k =>
    if k = call.name then
      some (if call.append then (store call.name).getD [] ++ call.data else call.data)
    else store k

/-- Effect of `EllipticsFile.close` on the remote store. -/
def closeEffect (f : EFile) (store : Store) : Store :=
  match f.close with
  | none => store
  | some call => applySaveCall store call

/-- What `__collect_thread_status_and_kill` finds in a slot after joining with
the bounded wait: `pending` when the thread has not stored a result within the
join bound, `caught e` when `_timeout_request_with_result` caught a
`BaseError` derivative, `resp s` when the thread stored a response with
status `s`. -/
inductive SlotResult where
  | pending
  | caught (e : ThreadExc)
  | resp (status : Nat)
deriving DecidableEq

/-- One worker slot of `ThreadedEllipticsStorage.__active_threads`:
`finished` records whether `is_alive()` is already false at reap time. -/
structure Slot where
  finished : Bool
  result : SlotResult
deriving DecidableEq

/-- `ThreadedEllipticsStorage.__collect_thread_status_and_kill(thread)`
(storage/threaded.py): join the thread, pop its slot, and raise `BaseError`
for a missing result, re-raise a captured `BaseError`, or raise `SaveError`
on a non-200 response.  Returns the exception raised, if any. -/
def collectErr (s : Slot) : Option Exc :=
  match s.result with
  | .pending => some (.baseError "One of requests timed out")
  | .caught e => some e.toExc
  | .resp status => if status = 200 then none else some (.saveError status)

/-- `ThreadedEllipticsStorage.__wait_till_all_threads_finish`
(storage/threaded.py): join and pop every slot; a `BaseError` raised by a
collect is remembered, overwriting any earlier remembered one; any other
exception is logged and dropped; the remembered exception, if any, is
re-raised after the loop.  Returns the exception the drain raises; the pool
itself is empty afterwards since every collect pops its slot. -/
def drainPool (slots : List Slot) : Option Exc :=
  slots.foldl
    (fun excAcc s =>
      match collectErr s with
      | some e => if e.isBaseError then some e else excAcc
      | none => excAcc)
    none

/-- First phase of `_upload_chunk_in_thread` on a full pool: walk the slots
and collect every one whose thread already finished.  A failing collect pops
its slot and aborts the walk, leaving the slots not yet visited in the pool. -/
def reapFinished : List Slot → List Slot × Option Exc
  | [] => ([], none)
  | s :: rest =>
    if s.finished then
      match collectErr s with
      | some e => (rest, some e)
      | none => reapFinished rest
    else
      let pr := reapFinished rest
      (s :: pr.1, pr.2)

/-- Second phase on a still-full pool: `list(pool)[0]` is collected with a
blocking join; an empty pool raises `IndexError`. -/
def collectFirstSlot : List Slot → List Slot × Option Exc
  | [] => ([], some .indexError)
  | s :: rest => (rest, collectErr s)

/-- `ThreadedEllipticsStorage._upload_chunk_in_thread(url, chunk)`
(storage/threaded.py): when the pool is full, reap finished slots without
blocking; when it is still full, collect the first slot with a blocking join;
only then start the new thread and record its slot. -/
def uploadChunkInThread (maxSessions : Nat) (pool : List Slot) (slot : Slot) :
    List Slot × Option Exc :=
  let r1 := if pool.length = maxSessions then reapFinished pool else (pool, none)
  match r1 with
  | (pool1, some e) => (pool1, some e)
  | (pool1, none) =>
    let r2 := if pool1.length = maxSessions then collectFirstSlot pool1 else (pool1, none)
    match r2 with
    | (pool2, some e) => (pool2, some e)
    | (pool2, none) => (pool2 ++ [slot], none)

/-- Outcome of the synchronous `_timeout_request` POST issued for a request:
either an exception from the executor or a response status. -/
inductive SyncOutcome where
  | raised (e : ThreadExc)
  | resp (status : Nat)

/-- State of one threaded `_save_file` run: the worker pool, the requests
actually dispatched so far (synchronously POSTed or handed to a started
thread), and the first unhandled exception. -/
structure RunState where
  pool : List Slot
  issued : List UploadReq
  error : Option Exc
deriving DecidableEq

/-- `ThreadedEllipticsStorage._upload_a_chunk` (storage/threaded.py) applied
to the `i`-th sequencer request: a synchronous request first drains the pool,
then POSTs and checks the status; an asynchronous request goes through
`_upload_chunk_in_thread`.  Once an exception is unhandled the remaining
requests of the aborted `_save_file` loop are never reached. -/
def stepRun (maxSessions : Nat) (syncOut : Nat → SyncOutcome) (slotOf : Nat → Slot)
    (st : RunState) (i : Nat) (req : UploadReq) : RunState :=
  match st.error with
  | some _ => st
  | none =>
    if req.sync then
      match drainPool st.pool with
      | some e => { pool := [], issued := st.issued, error := some e }
      | none =>
        let issued := st.issued ++ [req]
        match syncOut i with
        | .raised e => { pool := [], issued := issued, error := some e.toExc }
        | .resp status =>
          if status = 200 then { pool := [], issued := issued, error := none }
          else { pool := [], issued := issued, error := some (.saveError status) }
    else
      match uploadChunkInThread maxSessions st.pool (slotOf i) with
      | (pool1, some e) => { pool := pool1, issued := st.issued, error := some e }
      | (pool1, none) => { pool := pool1, issued := st.issued ++ [req], error := none }

/-- Drive the sequencer's requests, numbered from `i`, through
`_upload_a_chunk`. -/
def runGo (maxSessions : Nat) (syncOut : Nat → SyncOutcome) (slotOf : Nat → Slot) :
    Nat → RunState → List UploadReq → RunState
  | _, st, [] => st
  | i, st, req :: rest =>
      runGo maxSessions syncOut slotOf (i + 1) (stepRun maxSessions syncOut slotOf st i req) rest

/-- `ThreadedEllipticsStorage._save_file` (storage/threaded.py): run the
sequencer's requests, then, in the `finally` clause, drain the pool once
more; an exception raised by that final drain replaces an in-flight one. -/
def runThreadedSave (maxSessions : Nat) (syncOut : Nat → SyncOutcome) (slotOf : Nat → Slot)
    (reqs : List UploadReq) : RunState :=
  let st := runGo maxSessions syncOut slotOf 0 { pool := [], issued := [], error := none } reqs
  match drainPool st.pool with
  | some e => { pool := [], issued := st.issued, error := some e }
  | none => { pool := [], issued := st.issued, error := st.error }

/-- Among the requests `rest` (numbered from `i`), some asynchronous one has a
slot whose collection fails, and every commit-bearing request comes after it. -/
def FutFail (slotOf : Nat → Slot) (rest : List UploadReq) (i : Nat) : Prop :=
  ∃ (k : Nat) (r : UploadReq), rest[k]? = some r ∧ r.sync = false ∧
    collectErr (slotOf (i + k)) ≠ none ∧
    ∀ (m : Nat) (q : UploadReq), rest[m]? = some q → q.commit ≠ none → k < m

/-! ## Request executor -/

theorem timeoutLoop_all_timeout (t : Nat → AttemptOutcome) (h : ∀ j, t j = .timeout) :
    ∀ k i, 0 < k + i → timeoutLoop t i k = .timedOut (i + k) := by
  intro k
  induction k with
  | zero =>
    intro i hi
    have hi0 : ¬i = 0 := by omega
    simp [timeoutLoop, hi0]
  | succ k ih =>
    intro i _
    simp only [timeoutLoop, h i]
    rw [ih (i + 1) (by omega)]
    congr 1
    omega

theorem timeoutLoop_first_resp (t : Nat → AttemptOutcome) :
    ∀ k a i s, a ≤ i → i - a < k → (∀ j, j < i → t j = .timeout) → t i = .resp s →
      timeoutLoop t a k = .ok s (i + 1) := by
  intro k
  induction k with
  | zero => intro a i s _ h2 _ _; omega
  | succ k ih =>
    intro a i s h1 h2 h3 h4
    rcases Nat.eq_or_lt_of_le h1 with rfl | hlt
    · simp only [timeoutLoop, h4]
    · have ht : t a = .timeout := h3 a hlt
      simp only [timeoutLoop, ht]
      exact ih (a + 1) i s (by omega) (by omega) h3 h4

/-- C7: with `retries_post = N ≥ 1` and a transport raising a timeout on every
attempt, `_timeout_request` makes exactly `N` attempts and then raises
`TimeoutError`; and a response received on any attempt, whatever its status
code, ends the retry loop at once with that response. -/
theorem claim7_retry_accounting (N : Nat) (t : Nat → AttemptOutcome) (hN : 1 ≤ N) :
    ((∀ j, t j = .timeout) → timeoutRequest t N = .timedOut N) ∧
    (∀ i s, i < N → (∀ j, j < i → t j = .timeout) → t i = .resp s →
      timeoutRequest t N = .ok s (i + 1)) := by
  constructor
  · intro h
    have := timeoutLoop_all_timeout t h N 0 (by omega)
    simpa [timeoutRequest] using this
  · intro i s hi hpre hresp
    exact timeoutLoop_first_resp t N 0 i s (by omega) (by omega) hpre hresp

theorem claim7_witness :
    1 ≤ 3 ∧ timeoutRequest (fun _ => AttemptOutcome.timeout) 3 = .timedOut 3 :=
  ⟨by decide,
    (claim7_retry_accounting 3 (fun _ => AttemptOutcome.timeout) (by decide)).1 (fun _ => rfl)⟩

/-! ## Delete -/

/-- C9: `delete(name)` issues exactly one GET to the delete URL and returns
`None` whatever status the transport answers: no status check, no retry, no
exception. -/
theorem claim9_delete_ignores_status (st : StorageSettings) (name : String)
    (transport : HttpCall → Nat) :
    deleteOp st name transport =
      ([{ method := .GET, url := makePrivateUrl st "delete" [name] [] }], none) ∧
    (deleteOp st name transport).1.length = 1 :=
  ⟨rfl, rfl⟩

/-! ## File handle close -/

/-- C10: an `EllipticsFile` opened for writing or appending and never written
to has no stream, so `close()` performs no `_save` call and the remote store
is left unchanged. -/
theorem claim10_close_without_write (name : String) (mode : List Char) (f : EFile)
    (store : Store) (hopen : openFile name mode = some f)
    (hmode : f.mode = .write ∨ f.mode = .append) :
    f.close = none ∧ closeEffect f store = store := by
  rcases hparse : parseMode mode with _ | fm
  · rw [openFile, hparse] at hopen
    simp at hopen
  · rw [openFile, hparse] at hopen
    simp only [Option.map_some', Option.some.injEq] at hopen
    subst hopen
    exact ⟨rfl, rfl⟩

theorem claim10_witness :
    openFile "k" [wChar] = some { name := "k", mode := .write, stream := none } ∧
    EFile.close { name := "k", mode := .write, stream := none } = none ∧
    closeEffect { name := "k", mode := .write, stream := none } (fun _ => none) =
      (fun _ => none) := by
  refine ⟨rfl, ?_⟩
  exact claim10_close_without_write "k" [wChar] _ (fun _ => none) rfl (Or.inl rfl)

/-! ## Pool drain -/

theorem collectErr_isBase (s : Slot) (e : Exc) (h : collectErr s = some e) :
    e.isBaseError = true := by
  rcases s with ⟨fin, res⟩
  rcases res with _ | te | status
  · simp only [collectErr, Option.some.injEq] at h
    subst h; rfl
  · simp only [collectErr, Option.some.injEq] at h
    subst h; cases te <;> rfl
  · simp only [collectErr] at h
    by_cases h200 : status = 200
    · simp [h200] at h
    · simp only [h200, if_false, Option.some.injEq] at h
      subst h; rfl

theorem or_getLast?_cons (l : List Exc) :
    ∀ (a : Exc) (acc : Option Exc), ((a :: l).getLast?).or acc = (l.getLast?).or (some a) := by
  induction l with
  | nil => intro a acc; rfl
  | cons b l ih =>
    intro a acc
    rw [List.getLast?_cons_cons, ih b acc, ih b (some a)]

theorem drainPool_fold (slots : List Slot) :
    ∀ acc : Option Exc,
      slots.foldl
        (fun excAcc s =>
          match collectErr s with
          | some e => if e.isBaseError then some e else excAcc
          | none => excAcc)
        acc = ((slots.filterMap collectErr).getLast?).or acc := by
  induction slots with
  | nil => intro acc; rfl
  | cons s rest ih =>
    intro acc
    rcases hce : collectErr s with _ | e
    · simp only [List.foldl_cons, hce, List.filterMap_cons_none hce]
      exact ih acc
    · simp only [List.foldl_cons, hce, collectErr_isBase s e hce, if_true,
        List.filterMap_cons_some hce]
      rw [ih (some e), or_getLast?_cons]

theorem drainPool_eq_getLast (slots : List Slot) :
    drainPool slots = (slots.filterMap collectErr).getLast? := by
  rw [drainPool, drainPool_fold slots none, Option.or_none]

theorem drainPool_isBase (slots : List Slot) (e : Exc) (h : drainPool slots = some e) :
    e.isBaseError = true := by
  rw [drainPool_eq_getLast] at h
  rcases List.mem_getLast?_eq_getLast (Option.mem_def.mpr h) with ⟨hne, rfl⟩
  have hmem : (slots.filterMap collectErr).getLast hne ∈ slots.filterMap collectErr :=
    List.getLast_mem hne
  rcases List.mem_filterMap.mp hmem with ⟨s, _, hce⟩
  exact collectErr_isBase s _ hce

theorem drainPool_some_of_fail (slots : List Slot) (s : Slot) (hs : s ∈ slots)
    (hfail : collectErr s ≠ none) : ∃ e, drainPool slots = some e ∧ e.isBaseError = true := by
  rcases hce : collectErr s with _ | e0
  · exact absurd hce hfail
  · have hmem : e0 ∈ slots.filterMap collectErr := List.mem_filterMap.mpr ⟨s, hs, hce⟩
    have hne : slots.filterMap collectErr ≠ [] := by
      intro hnil; rw [hnil] at hmem; exact List.not_mem_nil e0 hmem
    refine ⟨(slots.filterMap collectErr).getLast hne, ?_, ?_⟩
    · rw [drainPool_eq_getLast]
      exact List.getLast?_eq_getLast_of_ne_nil hne
    · have hmem2 : (slots.filterMap collectErr).getLast hne ∈ slots.filterMap collectErr :=
        List.getLast_mem hne
      rcases List.mem_filterMap.mp hmem2 with ⟨s2, _, hce2⟩
      exact collectErr_isBase s2 _ hce2

/-- C3 counterexample: a drain over two slots that both failed (statuses 500
then 503) raises the second failure, not the first. -/
theorem claim3_counterexample :
    drainPool [{ finished := true, result := .resp 500 }, { finished := true, result := .resp 503 }]
        = some (.saveError 503) ∧
      some (Exc.saveError 503) ≠ some (Exc.saveError 500) := by
  constructor
  · rfl
  · decide

/-- C3 (amended): the drain joins and pops every slot, even after failures,
and re-raises the last `BaseError` encountered over the whole pool; earlier
failures are dropped (every exception a collect can raise is a `BaseError`
derivative, so none ends up merely logged). -/
theorem claim3_drain_visits_all_raises_last (slots : List Slot) :
    drainPool slots = (slots.filterMap collectErr).getLast? :=
  drainPool_eq_getLast slots

/-! ## Pool admission -/

theorem reapFinished_len : ∀ pool : List Slot, (reapFinished pool).1.length ≤ pool.length := by
  intro pool
  induction pool with
  | nil => simp [reapFinished]
  | cons s rest ih =>
    cases hf : s.finished with
    | false =>
      simp only [reapFinished, hf, Bool.false_eq_true, if_false, List.length_cons]
      omega
    | true =>
      rcases hce : collectErr s with _ | e
      · simp only [reapFinished, hf, if_true, hce]
        exact le_trans ih (by simp)
      · simp only [reapFinished, hf, if_true, hce, List.length_cons]
        omega

theorem reapFinished_all_unfinished (pool : List Slot)
    (h : ∀ x ∈ pool, x.finished = false) : reapFinished pool = (pool, none) := by
  induction pool with
  | nil => rfl
  | cons s rest ih =>
    have hf : s.finished = false := h s (by simp)
    simp only [reapFinished, hf, Bool.false_eq_true, if_false]
    rw [ih (fun x hx => h x (by simp [hx]))]

theorem reapFinished_all_done_ok (pool : List Slot)
    (h : ∀ x ∈ pool, x.finished = true ∧ collectErr x = none) :
    reapFinished pool = ([], none) := by
  induction pool with
  | nil => rfl
  | cons s rest ih =>
    have hs := h s (by simp)
    simp only [reapFinished, hs.1, if_true, hs.2]
    exact ih (fun x hx => h x (by simp [hx]))

theorem reapFinished_preserves (pool : List Slot) :
    ∀ pool1, reapFinished pool = (pool1, none) →
      ∀ s ∈ pool, collectErr s ≠ none → s ∈ pool1 := by
  induction pool with
  | nil => intro pool1 _ s hs; simp at hs
  | cons x rest ih =>
    intro pool1 hre s hs hfail
    rcases List.mem_cons.mp hs with rfl | hmem
    · cases hf : s.finished with
      | true =>
        rcases hce : collectErr s with _ | e
        · exact absurd hce hfail
        · simp only [reapFinished, hf, if_true, hce, Prod.mk.injEq] at hre
          exact absurd hre.2 (by simp)
      | false =>
        simp only [reapFinished, hf, Bool.false_eq_true, if_false, Prod.mk.injEq] at hre
        rw [← hre.1]
        simp
    · cases hf : x.finished with
      | true =>
        rcases hce : collectErr x with _ | e
        · simp only [reapFinished, hf, if_true, hce] at hre
          exact ih pool1 hre s hmem hfail
        · simp only [reapFinished, hf, if_true, hce, Prod.mk.injEq] at hre
          exact absurd hre.2 (by simp)
      | false =>
        simp only [reapFinished, hf, Bool.false_eq_true, if_false, Prod.mk.injEq] at hre
        have hmem2 := ih (reapFinished rest).1 (by rw [← hre.2]) s hmem hfail
        rw [← hre.1]
        simp [hmem2]

theorem reapFinished_err_isBase (pool : List Slot) :
    ∀ e, (reapFinished pool).2 = some e → e.isBaseError = true := by
  induction pool with
  | nil => intro e h; simp [reapFinished] at h
  | cons x rest ih =>
    intro e h
    cases hf : x.finished with
    | true =>
      rcases hce : collectErr x with _ | e2
      · simp only [reapFinished, hf, if_true, hce] at h
        exact ih e h
      · simp only [reapFinished, hf, if_true, hce, Option.some.injEq] at h
        exact h ▸ collectErr_isBase x e2 hce
    | false =>
      simp only [reapFinished, hf, Bool.false_eq_true, if_false] at h
      exact ih e h

theorem uploadChunkInThread_len (maxS : Nat) (pool : List Slot) (slot : Slot)
    (hmax : 0 < maxS) (hlen : pool.length ≤ maxS) :
    (uploadChunkInThread maxS pool slot).1.length ≤ maxS := by
  rw [uploadChunkInThread]
  by_cases hfull : pool.length = maxS
  · simp only [hfull, if_true]
    rcases hre : reapFinished pool with ⟨pool1, e1⟩
    have h1 : pool1.length ≤ pool.length := by
      have := reapFinished_len pool
      rw [hre] at this
      exact this
    rcases e1 with _ | e
    · simp only
      by_cases hfull1 : pool1.length = maxS
      · simp only [hfull1, if_true]
        rcases pool1 with _ | ⟨s1, t1⟩
        · simp at hfull1
          omega
        · simp only [collectFirstSlot]
          rcases hce : collectErr s1 with _ | e2 <;> simp only
          · rw [List.length_append]
            simp only [List.length_cons] at hfull1
            simp
            omega
          · simp only [List.length_cons] at hfull1
            omega
      · simp only [hfull1, if_false]
        rw [List.length_append]
        simp
        omega
    · simp only
      omega
  · simp only [hfull, if_false]
    rw [List.length_append]
    simp
    omega

theorem uploadChunkInThread_err_isBase (maxS : Nat) (pool : List Slot) (slot : Slot)
    (hmax : 0 < maxS) :
    ∀ e, (uploadChunkInThread maxS pool slot).2 = some e → e.isBaseError = true := by
  intro e h
  rw [uploadChunkInThread] at h
  by_cases hfull : pool.length = maxS
  · simp only [hfull, if_true] at h
    rcases hre : reapFinished pool with ⟨pool1, e1⟩
    rw [hre] at h
    rcases e1 with _ | e2
    · simp only at h
      by_cases hfull1 : pool1.length = maxS
      · simp only [hfull1, if_true] at h
        rcases pool1 with _ | ⟨s1, t1⟩
        · simp at hfull1
          omega
        · simp only [collectFirstSlot] at h
          rcases hce : collectErr s1 with _ | e3
          · rw [hce] at h
            simp at h
          · rw [hce] at h
            simp only [Option.some.injEq] at h
            exact h ▸ collectErr_isBase s1 e3 hce
      · simp only [hfull1, if_false] at h
        simp at h
    · simp only [Option.some.injEq] at h
      exact h ▸ reapFinished_err_isBase pool e2 (by rw [hre])
  · simp only [hfull, if_false] at h
    simp at h

theorem uploadChunkInThread_ok (maxS : Nat) (pool : List Slot) (slot : Slot)
    (pool' : List Slot) (hmax : 0 < maxS)
    (h : uploadChunkInThread maxS pool slot = (pool', none)) :
    (∀ s ∈ pool, collectErr s ≠ none → s ∈ pool') ∧ slot ∈ pool' := by
  rw [uploadChunkInThread] at h
  by_cases hfull : pool.length = maxS
  · simp only [hfull, if_true] at h
    rcases hre : reapFinished pool with ⟨pool1, e1⟩
    rw [hre] at h
    rcases e1 with _ | e2
    · simp only at h
      by_cases hfull1 : pool1.length = maxS
      · simp only [hfull1, if_true] at h
        rcases pool1 with _ | ⟨s1, t1⟩
        · simp at hfull1
          omega
        · simp only [collectFirstSlot] at h
          rcases hce : collectErr s1 with _ | e3
          · rw [hce] at h
            simp only [Prod.mk.injEq] at h
            constructor
            · intro s hs hfail
              have hs1 : s ∈ s1 :: t1 := reapFinished_preserves pool (s1 :: t1) hre s hs hfail
              rcases List.mem_cons.mp hs1 with rfl | hmem
              · exact absurd hce hfail
              · rw [← h.1]
                simp [hmem]
            · rw [← h.1]
              simp
          · rw [hce] at h
            simp at h
      · simp only [hfull1, if_false, Prod.mk.injEq] at h
        constructor
        · intro s hs hfail
          have hs1 : s ∈ pool1 := reapFinished_preserves pool pool1 hre s hs hfail
          rw [← h.1]
          simp [hs1]
        · rw [← h.1]
          simp
    · simp at h
  · simp only [hfull, if_false, Prod.mk.injEq] at h
    constructor
    · intro s hs _
      rw [← h.1]
      simp [hs]
    · rw [← h.1]
      simp

/-- C8: the pool never exceeds `MAX_HTTP_SESSIONS` in-flight threads; a submit
that finds the pool full first reaps the already-finished slots without
blocking (freeing the whole pool when all of them finished cleanly) and, if
none finished, blocks on the first slot, reusing it for the new thread. -/
theorem claim8_pool_bound (maxS : Nat) (pool : List Slot) (slot : Slot)
    (hmax : 0 < maxS) (hlen : pool.length ≤ maxS) :
    (uploadChunkInThread maxS pool slot).1.length ≤ maxS ∧
    (∀ s rest, pool = s :: rest → pool.length = maxS → (∀ x ∈ pool, x.finished = false) →
      collectErr s = none → uploadChunkInThread maxS pool slot = (rest ++ [slot], none)) ∧
    (pool.length = maxS → (∀ x ∈ pool, x.finished = true ∧ collectErr x = none) →
      uploadChunkInThread maxS pool slot = ([slot], none)) := by
  refine ⟨uploadChunkInThread_len maxS pool slot hmax hlen, ?_, ?_⟩
  · intro s rest hpool hfull hunf hce
    subst hpool
    rw [uploadChunkInThread]
    simp only [hfull, if_true, reapFinished_all_unfinished _ hunf, collectFirstSlot, hce]
  · intro hfull hok
    rw [uploadChunkInThread]
    have hnil : ¬(([] : List Slot).length = maxS) := by simp; omega
    simp only [hfull, if_true, reapFinished_all_done_ok _ hok, hnil, if_false]
    rfl

theorem claim8_witness :
    0 < 2 ∧
    (uploadChunkInThread 2
        [{ finished := false, result := .pending }, { finished := false, result := .pending }]
        { finished := false, result := .pending }).1.length ≤ 2 :=
  ⟨by decide,
    (claim8_pool_bound 2 _ _ (by decide) (by decide)).1⟩

/-! ## Sequencer: general request-stream invariants -/

theorem take_length_take (l : List Nat) (n : Nat) : l.take ((l.take n).length) = l.take n := by
  rw [List.length_take]
  rcases le_total n l.length with h | h
  · rw [min_eq_left h]
  · rw [min_eq_right h, List.take_length, List.take_of_length_le h]

theorem saveFileGo_eq_nil_iff (M L : Nat) (c : Content) (u : Nat) (chunk : List Nat) :
    saveFileGo M L c u chunk = [] ↔ chunk.length = 0 := by
  by_cases h : chunk.length = 0
  · simp [saveFileGo, h]
  · rw [saveFileGo]
    simp [h]

theorem saveFileGo_prepare_none (M L : Nat) (c : Content) (u : Nat) (chunk : List Nat) :
    0 < u → ∀ r ∈ saveFileGo M L c u chunk, r.prepare = none := by
  induction c, u, chunk using saveFileGo.induct M L with
  | case1 c u chunk h => simp [saveFileGo, h]
  | case2 c u chunk h ih =>
    intro hu r hr
    rw [saveFileGo] at hr
    simp only [dif_neg h, List.mem_cons] at hr
    rcases hr with rfl | hr
    · simp [Nat.pos_iff_ne_zero.mp hu]
    · exact ih (by omega) r hr

theorem saveFileGo_commit_mid (M L : Nat) (c : Content) (u : Nat) (chunk : List Nat) :
    ∀ i r, i + 1 < (saveFileGo M L c u chunk).length →
      (saveFileGo M L c u chunk)[i]? = some r → r.commit = none := by
  induction c, u, chunk using saveFileGo.induct M L with
  | case1 c u chunk h => intro i r hlt; rw [saveFileGo] at hlt; simp [h] at hlt
  | case2 c u chunk h ih =>
    intro i r hlt hr
    rw [saveFileGo] at hlt hr
    simp only [dif_neg h] at hlt hr
    cases i with
    | zero =>
      rw [List.getElem?_cons_zero, Option.some.injEq] at hr
      subst hr
      have hnext : ¬(createChunk c (u + chunk.length) M).1.length = 0 := by
        intro h0
        have hnil : saveFileGo M L (createChunk c (u + chunk.length) M).2 (u + chunk.length)
            (createChunk c (u + chunk.length) M).1 = [] :=
          (saveFileGo_eq_nil_iff M L _ _ _).mpr h0
        rw [hnil] at hlt
        simp at hlt
      simp [hnext]
    | succ j =>
      rw [List.getElem?_cons_succ] at hr
      rw [List.length_cons] at hlt
      exact ih j r (by omega) hr

theorem saveFileGo_commit_last (M L : Nat) (c : Content) (u : Nat) (chunk : List Nat) :
    ∀ r, (saveFileGo M L c u chunk).getLast? = some r →
      r.commit = some (u + ((saveFileGo M L c u chunk).map (fun q => q.body.length)).sum) ∨
      (u = 0 ∧ (saveFileGo M L c u chunk).length = 1 ∧ r.commit = none) := by
  induction c, u, chunk using saveFileGo.induct M L with
  | case1 c u chunk h => intro r hr; rw [saveFileGo] at hr; simp [h] at hr
  | case2 c u chunk h ih =>
    intro r hr
    rw [saveFileGo] at hr ⊢
    simp only [dif_neg h] at hr ⊢
    by_cases hnext : (createChunk c (u + chunk.length) M).1.length = 0
    · have hnil : saveFileGo M L (createChunk c (u + chunk.length) M).2 (u + chunk.length)
          (createChunk c (u + chunk.length) M).1 = [] :=
        (saveFileGo_eq_nil_iff M L _ _ _).mpr hnext
      rw [hnil] at hr ⊢
      simp only [List.getLast?_singleton, Option.some.injEq] at hr
      subst hr
      by_cases hu : u = 0
      · right
        subst hu
        simp [hnext]
      · left
        simp [hnext, Nat.pos_of_ne_zero hu]
    · have hnil : saveFileGo M L (createChunk c (u + chunk.length) M).2 (u + chunk.length)
          (createChunk c (u + chunk.length) M).1 ≠ [] := by
        intro h0
        exact hnext ((saveFileGo_eq_nil_iff M L _ _ _).mp h0)
      rcases List.exists_cons_of_ne_nil hnil with ⟨b, tail, hbt⟩
      rw [hbt, List.getLast?_cons_cons] at hr
      rw [← hbt] at hr
      rcases ih r hr with hcommit | ⟨hzero, _, _⟩
      · left
        rw [hcommit]
        rw [hbt]
        simp only [List.map_cons, List.sum_cons, ← hbt]
        congr 1
        omega
      · omega

theorem saveFileGo_sync_of_commit (M L : Nat) (c : Content) (u : Nat) (chunk : List Nat) :
    ∀ r ∈ saveFileGo M L c u chunk, r.commit ≠ none → r.sync = true := by
  induction c, u, chunk using saveFileGo.induct M L with
  | case1 c u chunk h => simp [saveFileGo, h]
  | case2 c u chunk h ih =>
    intro r hr hc
    rw [saveFileGo] at hr
    simp only [dif_neg h, List.mem_cons] at hr
    rcases hr with rfl | hr
    · by_cases hnext : (createChunk c (u + chunk.length) M).1.length = 0
      · simp [hnext]
      · simp [hnext] at hc
    · exact ih r hr hc

theorem saveFileGo_sync_false_not_last (M L : Nat) (c : Content) (u : Nat) (chunk : List Nat) :
    ∀ i r, (saveFileGo M L c u chunk)[i]? = some r → r.sync = false →
      i + 1 < (saveFileGo M L c u chunk).length := by
  induction c, u, chunk using saveFileGo.induct M L with
  | case1 c u chunk h => intro i r hr; rw [saveFileGo] at hr; simp [h] at hr
  | case2 c u chunk h ih =>
    intro i r hr hs
    rw [saveFileGo] at hr ⊢
    simp only [dif_neg h] at hr ⊢
    cases i with
    | zero =>
      rw [List.getElem?_cons_zero, Option.some.injEq] at hr
      subst hr
      simp only [Bool.or_eq_false_iff, decide_eq_false_iff_not] at hs
      have hnil : saveFileGo M L (createChunk c (u + chunk.length) M).2 (u + chunk.length)
          (createChunk c (u + chunk.length) M).1 ≠ [] := by
        intro h0
        exact hs.2 ((saveFileGo_eq_nil_iff M L _ _ _).mp h0)
      rw [List.length_cons]
      have := List.length_pos.mpr hnil
      omega
    | succ j =>
      rw [List.getElem?_cons_succ] at hr
      rw [List.length_cons]
      have := ih j r hr hs
      omega

/-! ## Sequencer: buffer-content facts -/

theorem saveFileGo_bytes_flatten (M L : Nat) (hM : 0 < M) (d : List Nat) :
    ∀ (c : Content) (u : Nat) (chunk : List Nat), c = .bytes d → chunk = (d.drop u).take M →
      ((saveFileGo M L c u chunk).map (fun q => q.body)).flatten = d.drop u := by
  intro c u chunk
  induction c, u, chunk using saveFileGo.induct M L with
  | case1 c u chunk h =>
    intro _ hchunk
    rw [saveFileGo]
    simp only [dif_pos h, List.map_nil, List.flatten_nil]
    subst hchunk
    rw [List.length_take, List.length_drop] at h
    have hlen : d.length - u = 0 := by omega
    exact (List.drop_eq_nil_iff_le.mpr (by omega)).symm
  | case2 c u chunk h ih =>
    intro hc hchunk
    subst hc
    rw [saveFileGo]
    simp only [dif_neg h, List.map_cons, List.flatten_cons]
    rw [ih rfl rfl]
    subst hchunk
    have hdd : d.drop (u + ((d.drop u).take M).length) = d.drop (u + M) := by
      rw [List.length_take, List.length_drop]
      rcases le_total M (d.length - u) with hle | hle
      · rw [min_eq_left hle]
      · rw [min_eq_right hle]
        rw [List.drop_eq_nil_iff_le.mpr (by omega), List.drop_eq_nil_iff_le.mpr (by omega)]
    rw [hdd, List.drop_take_append_drop]

theorem saveFileGo_bytes_offsets (M L : Nat) (hM : 0 < M) (d : List Nat) :
    ∀ (c : Content) (u : Nat) (chunk : List Nat), c = .bytes d → chunk = (d.drop u).take M →
      u ≤ d.length → (0 < u ∨ M < d.length) →
      ∀ i r, (saveFileGo M L c u chunk)[i]? = some r →
        r.offset =
          some (u + (((saveFileGo M L c u chunk).take i).map (fun q => q.body.length)).sum) ∧
        r.size = some r.body.length ∧
        r.body =
          (d.drop
            (u + (((saveFileGo M L c u chunk).take i).map (fun q => q.body.length)).sum)).take M := by
  intro c u chunk
  induction c, u, chunk using saveFileGo.induct M L with
  | case1 c u chunk h =>
    intro _ _ _ _ i r hr
    rw [saveFileGo] at hr
    simp [h] at hr
  | case2 c u chunk h ih =>
    intro hc hchunk hu hcond i r hr
    subst hc
    have hcl : chunk.length = min M (d.length - u) := by
      rw [hchunk, List.length_take, List.length_drop]
    have hnextlen : (createChunk (Content.bytes d) (u + chunk.length) M).1.length =
        min M (d.length - (u + chunk.length)) := by
      simp [createChunk]
    rw [saveFileGo] at hr ⊢
    simp only [dif_neg h] at hr ⊢
    cases i with
    | zero =>
      rw [List.getElem?_cons_zero, Option.some.injEq] at hr
      subst hr
      have hoffs : ¬(u = 0 ∧ (createChunk (Content.bytes d) (u + chunk.length) M).1.length = 0) := by
        rcases hcond with hpos | hlt
        · intro hco; omega
        · intro hco
          rw [hnextlen] at hco
          have hcl0 : chunk.length = M := by omega
          omega
      simp only [List.take_zero, List.map_nil, List.sum_nil, Nat.add_zero]
      exact ⟨if_neg hoffs, if_neg hoffs, hchunk⟩
    | succ j =>
      rw [List.getElem?_cons_succ] at hr
      have hcl1 : 0 < chunk.length := Nat.pos_of_ne_zero h
      have hru : u + chunk.length ≤ d.length := by omega
      have ihj := ih rfl rfl hru (Or.inl (by omega)) j r hr
      rw [List.take_succ_cons, List.map_cons, List.sum_cons]
      dsimp only
      refine ⟨?_, ihj.2.1, ?_⟩
      · rw [ihj.1]
        congr 1
        omega
      · rw [ihj.2.2]
        congr 2
        omega

/-! ## C1: multi-chunk upload of a buffer of known length -/

/-- C1: for buffer content of known length `L > MAX_CHUNK_SIZE`, `_save_file`
issues a non-empty request sequence whose first request carries `prepare=L`,
whose last carries `commit=L`, whose chunk sizes sum to `L`, whose offsets are
contiguous starting at 0 (each offset is the sum of the sizes before it), and
whose body at offset `k` is exactly the content bytes `[k, k+size)`. -/
theorem claim1_multichunk_upload (d : List Nat) (M : Nat) (hM : 0 < M) (hL : M < d.length) :
    saveFile M d.length (Content.bytes d) ≠ [] ∧
    (∀ r, (saveFile M d.length (Content.bytes d)).head? = some r →
      r.prepare = some d.length) ∧
    (∀ r, (saveFile M d.length (Content.bytes d)).getLast? = some r →
      r.commit = some d.length) ∧
    ((saveFile M d.length (Content.bytes d)).map (fun q => q.body.length)).sum = d.length ∧
    (∀ i r, (saveFile M d.length (Content.bytes d))[i]? = some r →
      r.offset =
        some ((((saveFile M d.length (Content.bytes d)).take i).map
          (fun q => q.body.length)).sum) ∧
      r.size = some r.body.length ∧
      r.body =
        (d.drop ((((saveFile M d.length (Content.bytes d)).take i).map
          (fun q => q.body.length)).sum)).take r.body.length) := by
  have hre : saveFile M d.length (Content.bytes d) =
      saveFileGo M d.length (Content.bytes d) 0 ((d.drop 0).take M) := rfl
  have hsum : ((saveFile M d.length (Content.bytes d)).map (fun q => q.body.length)).sum
      = d.length := by
    have hflat := saveFileGo_bytes_flatten M d.length hM d (Content.bytes d) 0
      ((d.drop 0).take M) rfl rfl
    have hlenflat := congrArg List.length hflat
    rw [List.length_flatten, List.drop_zero, List.map_map] at hlenflat
    rw [hre]
    exact hlenflat
  refine ⟨?_, ?_, ?_, hsum, ?_⟩
  · rw [hre, Ne, saveFileGo_eq_nil_iff]
    rw [List.length_take, List.length_drop]
    omega
  · intro r hr
    rw [hre, saveFileGo] at hr
    have hch : ¬((d.drop 0).take M).length = 0 := by
      rw [List.length_take, List.length_drop]
      omega
    simp only [dif_neg hch, List.head?_cons, Option.some.injEq] at hr
    subst hr
    have hcl : ((d.drop 0).take M).length = M := by
      rw [List.length_take, List.length_drop]
      omega
    have hnl : ((d.drop (0 + ((d.drop 0).take M).length)).take M).length ≠ 0 := by
      rw [hcl, List.length_take, List.length_drop]
      omega
    have hpos : 0 < (createChunk (Content.bytes d) (0 + ((d.drop 0).take M).length) M).1.length := by
      have heq : (createChunk (Content.bytes d) (0 + ((d.drop 0).take M).length) M).1.length =
          ((d.drop (0 + ((d.drop 0).take M).length)).take M).length := rfl
      omega
    exact if_pos ⟨trivial, hpos, by omega⟩
  · intro r hr
    rw [hre] at hr
    rcases saveFileGo_commit_last M d.length (Content.bytes d) 0 ((d.drop 0).take M) r hr
      with hc | ⟨_, hlen1, _⟩
    · rw [hc, ← hre, hsum]
      simp
    · exfalso
      rw [← hre] at hlen1
      rcases List.length_eq_one.mp hlen1 with ⟨a, ha⟩
      have hsum2 := hsum
      rw [ha] at hsum2
      simp only [List.map_cons, List.map_nil, List.sum_cons, List.sum_nil] at hsum2
      have h0 := saveFileGo_bytes_offsets M d.length hM d (Content.bytes d) 0
        ((d.drop 0).take M) rfl rfl (by omega) (Or.inr hL) 0 a (by rw [← hre, ha]; rfl)
      have hbl := congrArg List.length h0.2.2
      rw [List.length_take] at hbl
      rw [← hre, ha] at hbl
      simp only [List.take_zero, List.map_nil, List.sum_nil] at hbl
      rw [List.length_drop] at hbl
      omega
  · intro i r hr
    rw [hre] at hr
    have h0 := saveFileGo_bytes_offsets M d.length hM d (Content.bytes d) 0
      ((d.drop 0).take M) rfl rfl (by omega) (Or.inr hL) i r hr
    rw [← hre] at h0
    simp only [Nat.zero_add] at h0
    refine ⟨h0.1, h0.2.1, ?_⟩
    rw [h0.2.2]
    conv_lhs => rw [← take_length_take (d.drop
      ((((saveFile M d.length (Content.bytes d)).take i).map (fun q => q.body.length)).sum)) M]

theorem claim1_witness :
    (0 < 2 ∧ 2 < 5) ∧
    (saveFile 2 5 (Content.bytes [1, 2, 3, 4, 5]) ≠ [] ∧
      (∀ r, (saveFile 2 5 (Content.bytes [1, 2, 3, 4, 5])).head? = some r →
        r.prepare = some 5) ∧
      (∀ r, (saveFile 2 5 (Content.bytes [1, 2, 3, 4, 5])).getLast? = some r →
        r.commit = some 5) ∧
      ((saveFile 2 5 (Content.bytes [1, 2, 3, 4, 5])).map (fun q => q.body.length)).sum = 5 ∧
      (∀ i r, (saveFile 2 5 (Content.bytes [1, 2, 3, 4, 5]))[i]? = some r →
        r.offset =
          some ((((saveFile 2 5 (Content.bytes [1, 2, 3, 4, 5])).take i).map
            (fun q => q.body.length)).sum) ∧
        r.size = some r.body.length ∧
        r.body =
          (([1, 2, 3, 4, 5] : List Nat).drop
            ((((saveFile 2 5 (Content.bytes [1, 2, 3, 4, 5])).take i).map
              (fun q => q.body.length)).sum)).take r.body.length)) :=
  ⟨⟨by decide, by decide⟩, claim1_multichunk_upload [1, 2, 3, 4, 5] 2 (by decide) (by decide)⟩

/-! ## C4: unknown content size falls back to the append loop -/

theorem take_chunk_append (d : List Nat) (u M : Nat) (hM : 0 < M) :
    (d.drop u).take M ++ d.drop (u + ((d.drop u).take M).length) = d.drop u := by
  have hdd : d.drop (u + ((d.drop u).take M).length) = d.drop (u + M) := by
    rw [List.length_take, List.length_drop]
    rcases le_total M (d.length - u) with hle | hle
    · rw [min_eq_left hle]
    · rw [min_eq_right hle, List.drop_eq_nil_of_le (by omega),
        List.drop_eq_nil_of_le (by omega)]
  rw [hdd, List.drop_take_append_drop]

theorem saveAppendLoop_reqs (M : Nat) (c : Content) (u : Nat) :
    ∀ r ∈ saveAppendLoop M c u, r.ioflags = some 2 ∧ r.offset = none ∧ r.size = none ∧
      r.prepare = none ∧ r.commit = none ∧ r.body ≠ [] := by
  induction c, u using saveAppendLoop.induct M with
  | case1 c u h => simp [saveAppendLoop, h]
  | case2 c u h ih =>
    intro r hr
    rw [saveAppendLoop] at hr
    simp only [dif_neg h, List.mem_cons] at hr
    rcases hr with rfl | hr
    · refine ⟨rfl, rfl, rfl, rfl, rfl, ?_⟩
      intro hnil
      exact h (congrArg List.length hnil)
    · exact ih r hr

theorem saveAppendLoop_flatten (M : Nat) (hM : 0 < M) (c : Content) (u : Nat) :
    ((saveAppendLoop M c u).map (fun q => q.body)).flatten = c.rest u := by
  induction c, u using saveAppendLoop.induct M with
  | case1 c u h =>
    rw [saveAppendLoop]
    simp only [dif_pos h, List.map_nil, List.flatten_nil]
    cases c with
    | bytes d =>
      simp only [createChunk, List.length_take, List.length_drop] at h
      simp only [Content.rest]
      rw [List.drop_eq_nil_of_le (by omega)]
    | stream p d =>
      simp only [createChunk, List.length_take, List.length_drop] at h
      simp only [Content.rest]
      rw [List.drop_eq_nil_of_le (by omega)]
  | case2 c u h ih =>
    rw [saveAppendLoop]
    simp only [dif_neg h, List.map_cons, List.flatten_cons]
    rw [ih]
    cases c with
    | bytes d =>
      simp only [createChunk, Content.rest]
      exact take_chunk_append d u M hM
    | stream p d =>
      simp only [createChunk, Content.rest]
      exact take_chunk_append d p M hM

/-- C4: when the size probe fails (`sizeGuess = none`), a non-append `_save`
does not fail: it emits each chunk as an independent `ioflags=2` request with
none of the offset, size, prepare or commit parameters, non-empty until the
chunk source is exhausted, and together the chunks carry exactly the content. -/
theorem claim4_unknown_size_append (M : Nat) (hM : 0 < M) (c : Content) :
    (∀ r ∈ saveOp M false none c, r.ioflags = some 2 ∧ r.offset = none ∧ r.size = none ∧
      r.prepare = none ∧ r.commit = none ∧ r.body ≠ []) ∧
    ((saveOp M false none c).map (fun q => q.body)).flatten = c.rest 0 := by
  have he : saveOp M false none c = saveAppendLoop M c 0 := rfl
  rw [he]
  exact ⟨saveAppendLoop_reqs M c 0, saveAppendLoop_flatten M hM c 0⟩

theorem claim4_witness :
    0 < 2 ∧
    ((saveOp 2 false none (Content.stream 0 [5, 6, 7])).map (fun q => q.body)).flatten =
      (Content.stream 0 [5, 6, 7]).rest 0 :=
  ⟨by decide, (claim4_unknown_size_append 2 (by decide) (Content.stream 0 [5, 6, 7])).2⟩

/-! ## C5: short content -/

/-- C5 counterexample: empty content issues no request at all (not one). -/
theorem claim5_counterexample :
    saveOp 3 false (some 0) (Content.bytes []) = [] ∧
    (saveOp 3 false (some 0) (Content.bytes [])).length ≠ 1 := by
  have h : saveOp 3 false (some 0) (Content.bytes []) = [] := by
    have h1 : saveOp 3 false (some 0) (Content.bytes []) =
        saveFileGo 3 0 (Content.bytes []) 0 [] := rfl
    rw [h1, saveFileGo]
    simp
  exact ⟨h, by rw [h]; decide⟩

/-- C5 (amended): non-empty buffer content strictly shorter than
`MAX_CHUNK_SIZE` yields exactly one request carrying none of the offset,
size, prepare or commit parameters; empty content yields no request. -/
theorem claim5_short_content_single_request (d : List Nat) (M : Nat) (hne : d ≠ [])
    (hlen : d.length < M) :
    saveOp M false (some d.length) (Content.bytes d) =
      [{ offset := none, size := none, prepare := none, commit := none, ioflags := none,
         body := d, sync := true }] := by
  have h1 : saveOp M false (some d.length) (Content.bytes d) =
      saveFileGo M d.length (Content.bytes d) 0 ((d.drop 0).take M) := rfl
  have htake : (d.drop 0).take M = d := by
    rw [List.drop_zero]
    exact List.take_of_length_le (le_of_lt hlen)
  rw [h1, htake, saveFileGo]
  have hch : ¬d.length = 0 := by
    intro h0
    exact hne (List.eq_nil_of_length_eq_zero h0)
  rw [dif_neg hch]
  have hnext : (createChunk (Content.bytes d) (0 + d.length) M).1 = [] := by
    simp [createChunk]
  rw [hnext]
  rw [(saveFileGo_eq_nil_iff M d.length
    (createChunk (Content.bytes d) (0 + d.length) M).2 (0 + d.length) []).mpr rfl]
  simp

theorem claim5_witness :
    (([7] : List Nat) ≠ [] ∧ ([7] : List Nat).length < 2) ∧
    saveOp 2 false (some ([7] : List Nat).length) (Content.bytes [7]) =
      [{ offset := none, size := none, prepare := none, commit := none, ioflags := none,
         body := [7], sync := true }] :=
  ⟨⟨by decide, by decide⟩, claim5_short_content_single_request [7] 2 (by decide) (by decide)⟩

/-! ## C6: placement of prepare and commit -/

/-- C6: in every non-append session, only the first request can carry
`prepare`, only the last can carry `commit`, and a single-request session
carries neither. -/
theorem claim6_prepare_commit_placement (M L : Nat) (c : Content) :
    (∀ i r, 0 < i → (saveFile M L c)[i]? = some r → r.prepare = none) ∧
    (∀ i r, i + 1 < (saveFile M L c).length → (saveFile M L c)[i]? = some r →
      r.commit = none) ∧
    ((saveFile M L c).length = 1 → ∀ r, (saveFile M L c).head? = some r →
      r.prepare = none ∧ r.commit = none) := by
  have h1 : saveFile M L c = saveFileGo M L (createChunk c 0 M).2 0 (createChunk c 0 M).1 := rfl
  refine ⟨?_, ?_, ?_⟩
  · intro i r hi hr
    rw [h1] at hr
    by_cases hch : (createChunk c 0 M).1.length = 0
    · rw [saveFileGo] at hr
      simp [hch] at hr
    · rw [saveFileGo, dif_neg hch] at hr
      cases i with
      | zero => omega
      | succ j =>
        rw [List.getElem?_cons_succ] at hr
        have hmem := List.getElem?_mem hr
        have hpos : 0 < (createChunk c 0 M).1.length := Nat.pos_of_ne_zero hch
        exact saveFileGo_prepare_none M L _ _ _ (by omega) r hmem
  · intro i r hlt hr
    rw [h1] at hlt hr
    exact saveFileGo_commit_mid M L _ _ _ i r hlt hr
  · intro hlen r hr
    rw [h1] at hlen hr
    by_cases hch : (createChunk c 0 M).1.length = 0
    · rw [saveFileGo] at hr
      simp [hch] at hr
    · rw [saveFileGo, dif_neg hch] at hlen hr
      rw [List.head?_cons, Option.some.injEq] at hr
      subst hr
      rw [List.length_cons] at hlen
      have ht0 : (saveFileGo M L
          (createChunk (createChunk c 0 M).2 (0 + (createChunk c 0 M).1.length) M).2
          (0 + (createChunk c 0 M).1.length)
          (createChunk (createChunk c 0 M).2 (0 + (createChunk c 0 M).1.length) M).1).length
          = 0 := by omega
      have hnext0 : (createChunk (createChunk c 0 M).2
          (0 + (createChunk c 0 M).1.length) M).1.length = 0 :=
        (saveFileGo_eq_nil_iff M L _ _ _).mp (List.eq_nil_of_length_eq_zero ht0)
      have hc1 : ¬(0 = 0 ∧ 0 < (createChunk (createChunk c 0 M).2
          (0 + (createChunk c 0 M).1.length) M).1.length ∧
          (createChunk c 0 M).1.length < L) := by
        intro hco
        omega
      have hc2 : ¬(0 < 0 ∧ (createChunk (createChunk c 0 M).2
          (0 + (createChunk c 0 M).1.length) M).1.length = 0) := by
        intro hco
        omega
      exact ⟨if_neg hc1, @if_neg _ _ hc2 _ (some (0 + (createChunk c 0 M).1.length)) none⟩

theorem claim6_witness :
    (saveFile 2 5 (Content.bytes [1, 2, 3, 4, 5]))[1]? =
      some { offset := some 2, size := some 2, prepare := none, commit := none, ioflags := none,
             body := [3, 4], sync := false } ∧
    ({ offset := some 2, size := some 2, prepare := none, commit := none, ioflags := none,
       body := [3, 4], sync := false } : UploadReq).prepare = none := by
  constructor
  · simp [saveFile, saveFileGo, createChunk]
  · exact (claim6_prepare_commit_placement 2 5 (Content.bytes [1, 2, 3, 4, 5])).1 1 _ (by decide)
      (by simp [saveFile, saveFileGo, createChunk])

/-! ## C2: an interior failure blocks the commit request -/

theorem ThreadExc_toExc_isBase (e : ThreadExc) : e.toExc.isBaseError = true := by
  cases e <;> rfl

theorem runGo_frozen (maxS : Nat) (syncOut : Nat → SyncOutcome) (slotOf : Nat → Slot) :
    ∀ (rest : List UploadReq) (i : Nat) (st : RunState) (e : Exc), st.error = some e →
      runGo maxS syncOut slotOf i st rest = st := by
  intro rest
  induction rest with
  | nil => intro i st e _; rfl
  | cons req rest ih =>
    intro i st e herr
    have hstep : stepRun maxS syncOut slotOf st i req = st := by
      rw [stepRun, herr]
    rw [runGo, hstep]
    exact ih (i + 1) st e herr

theorem runGo_spec (maxS : Nat) (syncOut : Nat → SyncOutcome) (slotOf : Nat → Slot)
    (hmax : 0 < maxS) :
    ∀ (rest : List UploadReq) (i : Nat) (st : RunState),
      st.error = none →
      (∀ r ∈ st.issued, r.commit = none) →
      (∀ (m : Nat) (q : UploadReq), rest[m]? = some q → q.commit ≠ none → q.sync = true) →
      ((∃ s ∈ st.pool, collectErr s ≠ none) ∨ FutFail slotOf rest i) →
      (∀ r ∈ (runGo maxS syncOut slotOf i st rest).issued, r.commit = none) ∧
      (∀ e, (runGo maxS syncOut slotOf i st rest).error = some e → e.isBaseError = true) ∧
      ((runGo maxS syncOut slotOf i st rest).error = none →
        ∃ s ∈ (runGo maxS syncOut slotOf i st rest).pool, collectErr s ≠ none) := by
  intro rest
  induction rest with
  | nil =>
    intro i st herr hiss _ hdisj
    rw [runGo]
    refine ⟨hiss, ?_, ?_⟩
    · intro e he
      rw [herr] at he
      cases he
    · intro _
      rcases hdisj with ⟨s, hs, hf⟩ | ⟨k, r, hk, _⟩
      · exact ⟨s, hs, hf⟩
      · rw [List.getElem?_nil] at hk
        cases hk
  | cons req rest ih =>
    intro i st herr hiss hsc hdisj
    have hscr : ∀ (m : Nat) (q : UploadReq), rest[m]? = some q → q.commit ≠ none →
        q.sync = true :=
      fun m q hm => hsc (m + 1) q (by rw [List.getElem?_cons_succ]; exact hm)
    cases hsync : req.sync with
    | true =>
      rcases hdr : drainPool st.pool with _ | e
      · -- the pre-POST drain found nothing wrong: no failing slot is in the pool
        have hnofail : ∀ s ∈ st.pool, collectErr s = none := by
          intro s hs
          by_contra hf
          rcases drainPool_some_of_fail st.pool s hs hf with ⟨e0, he0, _⟩
          rw [hdr] at he0
          cases he0
        rcases hdisj with ⟨s, hs, hf⟩ | hfut
        · exact absurd (hnofail s hs) hf
        rcases hfut with ⟨k, r, hk, hrs, hrf, hord⟩
        cases k with
        | zero =>
          rw [List.getElem?_cons_zero, Option.some.injEq] at hk
          subst hk
          rw [hsync] at hrs
          cases hrs
        | succ k =>
          rw [List.getElem?_cons_succ] at hk
          have hreqc : req.commit = none := by
            by_contra hc
            have := hord 0 req List.getElem?_cons_zero hc
            omega
          have hfut2 : FutFail slotOf rest (i + 1) := by
            refine ⟨k, r, hk, hrs, ?_, ?_⟩
            · have heq : i + (k + 1) = i + 1 + k := by omega
              rw [← heq]
              exact hrf
            · intro m q hm hqc
              have := hord (m + 1) q (by rw [List.getElem?_cons_succ]; exact hm) hqc
              omega
          rcases hout : syncOut i with e2 | status
          · -- the synchronous POST raised: the run aborts here
            rw [runGo]
            have hstep : stepRun maxS syncOut slotOf st i req =
                { pool := [], issued := st.issued ++ [req], error := some e2.toExc } := by
              rw [stepRun, herr]
              simp [hsync, hdr, hout]
            rw [hstep, runGo_frozen maxS syncOut slotOf rest (i + 1) _ e2.toExc rfl]
            refine ⟨?_, ?_, ?_⟩
            · intro r2 hr2
              rcases List.mem_append.mp hr2 with hr2 | hr2
              · exact hiss r2 hr2
              · rw [List.mem_singleton.mp hr2]
                exact hreqc
            · intro e3 he3
              cases he3
              exact ThreadExc_toExc_isBase e2
            · intro hcontra
              cases hcontra
          · by_cases h200 : status = 200
            · -- success: carry on with the next request
              rw [runGo]
              have hstep : stepRun maxS syncOut slotOf st i req =
                  { pool := [], issued := st.issued ++ [req], error := none } := by
                rw [stepRun, herr]
                simp [hsync, hdr, hout, h200]
              rw [hstep]
              refine ih (i + 1) _ rfl ?_ hscr (Or.inr hfut2)
              intro r2 hr2
              rcases List.mem_append.mp hr2 with hr2 | hr2
              · exact hiss r2 hr2
              · rw [List.mem_singleton.mp hr2]
                exact hreqc
            · -- non-200 on the synchronous POST: SaveError, run aborts
              rw [runGo]
              have hstep : stepRun maxS syncOut slotOf st i req =
                  { pool := [], issued := st.issued ++ [req],
                    error := some (.saveError status) } := by
                rw [stepRun, herr]
                simp [hsync, hdr, hout, h200]
              rw [hstep, runGo_frozen maxS syncOut slotOf rest (i + 1) _ (.saveError status) rfl]
              refine ⟨?_, ?_, ?_⟩
              · intro r2 hr2
                rcases List.mem_append.mp hr2 with hr2 | hr2
                · exact hiss r2 hr2
                · rw [List.mem_singleton.mp hr2]
                  exact hreqc
              · intro e3 he3
                cases he3
                rfl
              · intro hcontra
                cases hcontra
      · -- the pre-POST drain raised: the run aborts before the POST
        rw [runGo]
        have hstep : stepRun maxS syncOut slotOf st i req =
            { pool := [], issued := st.issued, error := some e } := by
          rw [stepRun, herr]
          simp [hsync, hdr]
        rw [hstep, runGo_frozen maxS syncOut slotOf rest (i + 1) _ e rfl]
        refine ⟨hiss, ?_, ?_⟩
        · intro e3 he3
          cases he3
          exact drainPool_isBase st.pool e hdr
        · intro hcontra
          cases hcontra
    | false =>
      rcases hsub : uploadChunkInThread maxS st.pool (slotOf i) with ⟨pool1, e1⟩
      rcases e1 with _ | e
      · -- submission accepted: the new slot joins the pool
        have hpres := uploadChunkInThread_ok maxS st.pool (slotOf i) pool1 hmax hsub
        have hreqc : req.commit = none := by
          by_contra hc
          have := hsc 0 req List.getElem?_cons_zero hc
          rw [hsync] at this
          cases this
        rw [runGo]
        have hstep : stepRun maxS syncOut slotOf st i req =
            { pool := pool1, issued := st.issued ++ [req], error := none } := by
          rw [stepRun, herr]
          simp [hsync, hsub]
        rw [hstep]
        refine ih (i + 1) _ rfl ?_ hscr ?_
        · intro r2 hr2
          rcases List.mem_append.mp hr2 with hr2 | hr2
          · exact hiss r2 hr2
          · rw [List.mem_singleton.mp hr2]
            exact hreqc
        · rcases hdisj with ⟨s, hs, hf⟩ | ⟨k, r, hk, hrs, hrf, hord⟩
          · exact Or.inl ⟨s, hpres.1 s hs hf, hf⟩
          · cases k with
            | zero =>
              refine Or.inl ⟨slotOf i, hpres.2, ?_⟩
              simpa using hrf
            | succ k =>
              rw [List.getElem?_cons_succ] at hk
              refine Or.inr ⟨k, r, hk, hrs, ?_, ?_⟩
              · have heq : i + (k + 1) = i + 1 + k := by omega
                rw [← heq]
                exact hrf
              · intro m q hm hqc
                have := hord (m + 1) q (by rw [List.getElem?_cons_succ]; exact hm) hqc
                omega
      · -- the admission reap or forced collect raised: the run aborts here
        rw [runGo]
        have hstep : stepRun maxS syncOut slotOf st i req =
            { pool := pool1, issued := st.issued, error := some e } := by
          rw [stepRun, herr]
          simp [hsync, hsub]
        rw [hstep, runGo_frozen maxS syncOut slotOf rest (i + 1) _ e rfl]
        refine ⟨hiss, ?_, ?_⟩
        · intro e3 he3
          cases he3
          exact uploadChunkInThread_err_isBase maxS st.pool (slotOf i) hmax e (by rw [hsub])
        · intro hcontra
          cases hcontra

/-- C2: in the threaded upload path, if any asynchronous (interior) chunk's
slot collection fails — captured exception, non-200 status, or slot-join
timeout — then no dispatched request ever carries `commit` (the synchronous
commit POST is preceded by a drain that re-raises the failure), and the save
raises a `BaseError` derivative instead of returning a key. -/
theorem claim2_interior_failure_blocks_commit (M L : Nat) (c : Content) (maxS : Nat)
    (syncOut : Nat → SyncOutcome) (slotOf : Nat → Slot) (hmax : 0 < maxS)
    (hfail : ∃ (k : Nat) (r : UploadReq), (saveFile M L c)[k]? = some r ∧ r.sync = false ∧
      collectErr (slotOf k) ≠ none) :
    (∃ e, (runThreadedSave maxS syncOut slotOf (saveFile M L c)).error = some e ∧
      e.isBaseError = true) ∧
    ∀ r ∈ (runThreadedSave maxS syncOut slotOf (saveFile M L c)).issued, r.commit = none := by
  rcases hfail with ⟨k, r0, hk, hrs, hrf⟩
  have h1 : saveFile M L c = saveFileGo M L (createChunk c 0 M).2 0 (createChunk c 0 M).1 := rfl
  have hfut : FutFail slotOf (saveFile M L c) 0 := by
    refine ⟨k, r0, hk, hrs, by simpa using hrf, ?_⟩
    intro m q hm hqc
    have hk1 : k + 1 < (saveFile M L c).length := by
      rw [h1] at hk ⊢
      exact saveFileGo_sync_false_not_last M L _ _ _ k r0 hk hrs
    have hm1 : ¬(m + 1 < (saveFile M L c).length) := by
      intro hlt
      rw [h1] at hm hlt
      exact hqc (saveFileGo_commit_mid M L _ _ _ m q hlt hm)
    have hmlen : m < (saveFile M L c).length := (List.getElem?_eq_some.mp hm).1
    omega
  have hsc : ∀ (m : Nat) (q : UploadReq), (saveFile M L c)[m]? = some q → q.commit ≠ none →
      q.sync = true := by
    intro m q hm hqc
    rw [h1] at hm
    exact saveFileGo_sync_of_commit M L _ _ _ q (List.getElem?_mem hm) hqc
  have hrun := runGo_spec maxS syncOut slotOf hmax (saveFile M L c) 0
    { pool := [], issued := [], error := none } rfl (by simp) hsc (Or.inr hfut)
  rcases hrg : runGo maxS syncOut slotOf 0 { pool := [], issued := [], error := none }
      (saveFile M L c) with ⟨pool1, issued1, err1⟩
  rw [hrg] at hrun
  have h2 : runThreadedSave maxS syncOut slotOf (saveFile M L c) =
      match drainPool pool1 with
      | some e => { pool := [], issued := issued1, error := some e }
      | none => { pool := [], issued := issued1, error := err1 } := by
    rw [runThreadedSave, hrg]
  rcases hdp : drainPool pool1 with _ | e2
  · rcases herr1 : err1 with _ | e3
    · exfalso
      rw [herr1] at hrun
      rcases hrun.2.2 rfl with ⟨s, hs, hf⟩
      rcases drainPool_some_of_fail pool1 s hs hf with ⟨e4, he4, _⟩
      rw [hdp] at he4
      cases he4
    · subst herr1
      rw [h2, hdp]
      exact ⟨⟨e3, rfl, hrun.2.1 e3 rfl⟩, hrun.1⟩
  · rw [h2, hdp]
    exact ⟨⟨e2, rfl, drainPool_isBase pool1 e2 hdp⟩, hrun.1⟩

theorem claim2_witness :
    (∃ e, (runThreadedSave 5 (fun _ => SyncOutcome.resp 200)
        (fun _ => { finished := true, result := SlotResult.resp 500 })
        (saveFile 2 6 (Content.bytes [0, 1, 2, 3, 4, 5]))).error = some e ∧
      e.isBaseError = true) ∧
    ∀ r ∈ (runThreadedSave 5 (fun _ => SyncOutcome.resp 200)
        (fun _ => { finished := true, result := SlotResult.resp 500 })
        (saveFile 2 6 (Content.bytes [0, 1, 2, 3, 4, 5]))).issued, r.commit = none :=
  claim2_interior_failure_blocks_commit 2 6 (Content.bytes [0, 1, 2, 3, 4, 5]) 5
    (fun _ => SyncOutcome.resp 200) (fun _ => { finished := true, result := SlotResult.resp 500 })
    (by decide)
    ⟨1, { offset := some 2, size := some 2, prepare := none, commit := none, ioflags := none,
          body := [2, 3], sync := false },
      by simp [saveFile, saveFileGo, createChunk], rfl, by decide⟩

end DjangoElliptics
